import Mathlib

/-!
Verification of the asset-resolution and immutability-classification core of
the `whitenoise` Django middleware (`whitenoise/middleware.py`).

Strings are modelled as lists of characters (`Str`).  The external
collaborators (Django's `staticfiles_storage.url`, the WSGI-level base
class's `find_file` discovery, the transport response object) are modelled
as oracles / from the spec, as noted on each definition.
-/

namespace WhiteNoise

/-- Strings, modelled as lists of characters. -/
abbrev Str := List Char

/-- Index of the last occurrence of `c` in `l`: Python's `str.rfind`,
with `none` standing for Python's `-1`. -/
def rfind (c : Char) : Str → Option Nat
  | [] => none
  | a :: rest =>
    match rfind c rest with
    | some i => some (i + 1)
    | none => if a = c then some 0 else none

/-- A `rfind` result as Python's integer (`-1` when the character is absent). -/
def idxInt : Option Nat → Int
  | none => -1
  | some i => (i : Int)

/-- `os.path.splitext` (posix): split the extension off a path.  Follows
`genericpath._splitext` with `sep = '/'`, `extsep = '.'`: the split happens at
the last dot, provided it lies after the last slash and the filename up to it
is not made of dots only (leading dots are skipped). -/
def splitext (p : Str) : Str × Str :=
  let sepIndex := idxInt (rfind '/' p)
  let dotIndex := idxInt (rfind '.' p)
  if sepIndex < dotIndex then
    let fnStart := (sepIndex + 1).toNat
    let d := dotIndex.toNat
    if ((p.drop fnStart).take (d - fnStart)).any (fun ch => ch ≠ '.') then
      (p.take d, p.drop d)
    else (p, [])
  else (p, [])

/-- `posixpath.basename`: everything after the last `'/'`. -/
def basename (p : Str) : Str :=
  match rfind '/' p with
  | none => p
  | some i => p.drop (i + 1)

/-- `WhiteNoiseMiddleware.get_name_without_hash`: removes the version hash
from a filename, e.g. turns `css/application.f3ea4bcc2.css` into
`css/application.css`: split off the extension, split the remaining stem once
more at its last dot, rejoin the leading stem with the extension. -/
def get_name_without_hash (filename : Str) : Str :=
  let name_with_hash := (splitext filename).1
  let ext := (splitext filename).2
  let name := (splitext name_with_hash).1
  name ++ ext

/-! ## Data model: file handles, requests, responses -/

/-- The body of a response: a sequence of (byte-chunk) strings; the empty
list models Python's empty iterable `()`. -/
abbrev Body := List Str

/-- Modelled from the spec: the response tuple the external file-handle
abstraction returns from `FileHandle.respond(method, request_headers)`
(`static_file.get_response(request.method, request.META)` in the source):
a status, an optional body stream, and an ordered header list. -/
structure StaticResponse where
  status : Nat
  file : Option Body
  headers : List (Str × Str)

/-- Modelled from the spec: a resolved static-asset file handle
(`FileHandle` / the `static_file` objects of the base class, which is not
part of the sources under scrutiny); only its `get_response` interface is
consumed by the middleware. -/
structure StaticFile where
  get_response : Str → List (Str × Str) → StaticResponse

/-- A Django request, reduced to the fields the middleware reads:
`request.path_info`, `request.method` and `request.META`. -/
structure Request where
  path_info : Str
  method : Str
  meta : List (Str × Str)

/-- Middleware configuration and external collaborators.
`storage_url` is the external `VersionResolver`
(`staticfiles_storage.url`): `Except.error ()` models a raised
`ValueError`, `Except.ok none` a `None` result, `Except.ok (some u)` a
returned URL.  `find_file` is modelled from the spec: the filesystem
discovery of the WSGI-level base class (not among the sources under
scrutiny), returning a file handle for a URL or nothing. -/
structure MWConfig where
  autorefresh : Bool
  static_prefix : Str
  storage_url : Str → Except Unit (Option Str)
  find_file : Str → Option StaticFile

/-! ## Immutability classification -/

/-- `WhiteNoiseMiddleware.get_static_url`: query the versioning storage for
`name`, recovering a raised `ValueError` as `None`. -/
def get_static_url (cfg : MWConfig) (name : Str) : Option Str :=
  match cfg.storage_url name with
  | Except.error _ => none
  | Except.ok v => v

/-- `WhiteNoiseMiddleware.immutable_file_test`: determine whether `url`
represents an immutable (content-hashed) file.  `path` is the resolved
filesystem path, unused by this implementation. -/
def immutable_file_test (cfg : MWConfig) (path url : Str) : Bool :=
  if cfg.static_prefix.isPrefixOf url then
    let name := url.drop cfg.static_prefix.length
    let name_without_hash := get_name_without_hash name
    if name = name_without_hash then false
    else
      match get_static_url cfg name_without_hash with
      | none => false
      | some static_url =>
        -- `if static_url and basename(static_url) == basename(url)`:
        -- an empty string is falsy in Python.
        if static_url ≠ [] ∧ basename static_url = basename url then true
        else false
  else false

/-- The immutability rule as the specification words it: the url starts with
the static prefix; stripping the prefix yields `name`; removing the hash
segment yields a `name_without_hash` different from `name`; the version
resolver returns a canonical URL for `name_without_hash`; and that URL's
final path component equals the original url's. -/
def spec_immutable (cfg : MWConfig) (url : Str) : Prop :=
  cfg.static_prefix.isPrefixOf url = true ∧
  get_name_without_hash (url.drop cfg.static_prefix.length)
      ≠ url.drop cfg.static_prefix.length ∧
  ∃ static_url : Str,
    cfg.storage_url (get_name_without_hash (url.drop cfg.static_prefix.length))
        = Except.ok (some static_url) ∧
    basename static_url = basename url

/-! ## Transport responses and `serve` -/

/-- Lower-case a header name: HTTP header-name comparison is
case-insensitive. -/
def lowerStr (s : Str) : Str := s.map Char.toLower

/-- Modelled from the spec: deleting a header from the transport response
(Django's `del response[key]`), case-insensitively; deleting an absent
header is a no-op. -/
def headerDel (hs : List (Str × Str)) (k : Str) : List (Str × Str) :=
  hs.filter (fun q => lowerStr q.1 ≠ lowerStr k)

/-- Modelled from the spec: setting a header on the transport response
(Django's `response[key] = value`): replaces a case-insensitively matching
entry in place, else appends. -/
def headerSet (hs : List (Str × Str)) (k v : Str) : List (Str × Str) :=
  if hs.any (fun q => lowerStr q.1 = lowerStr k) then
    hs.map (fun q => if lowerStr q.1 = lowerStr k then (k, v) else q)
  else hs ++ [(k, v)]

/-- Case-insensitively pairwise-distinct header names (an `abbrev` so the
membership in a witness stays decidable). -/
abbrev headerNamesDistinct (hs : List (Str × Str)) : Prop :=
  (hs.map (fun q => lowerStr q.1)).Nodup

/-- The transport-level response object `serve` builds
(`WhiteNoiseFileResponse`). -/
structure FileHttpResponse where
  status : Nat
  body : Body
  headers : List (Str × Str)

/-- Modelled from the spec: the default `Content-Type` header Django's
`HttpResponse` constructor injects when none is given.  The overridden
(`pass`) `WhiteNoiseFileResponse.set_headers` suppresses every other default
header the transport layer would populate from the file. -/
def default_content_type : Str × Str :=
  (("Content-Type").data, ("text/html; charset=utf-8").data)

/-- `WhiteNoiseMiddleware.serve`: build the transport response from the file
handle's response: construct a `WhiteNoiseFileResponse` (whose suppressed
`set_headers` adds nothing beyond the constructor's default content type),
remove the default content type, then apply the authoritative headers in
order. -/
def serve (static_file : StaticFile) (request : Request) : FileHttpResponse :=
  let response := static_file.get_response request.method request.meta
  let status := response.status
  let body : Body := match response.file with | some b => b | none => []
  let initial : List (Str × Str) := [default_content_type]
  let afterDel := headerDel initial (("content-type").data)
  let applied := response.headers.foldl (fun hs kv => headerSet hs kv.1 kv.2) afterDel
  { status := status, body := body, headers := applied }

/-! ## The registry and `process_request` -/

/-- Lookup in an association list modelling a Python `dict` (`d.get(k)`). -/
def dictGet {β : Type} : List (Str × β) → Str → Option β
  | [], _ => none
  | q :: rest, k => if q.1 = k then some q.2 else dictGet rest k

/-- Python `d[k] = v` on a `dict`: replace the binding in place, else
append. -/
def dictSet {β : Type} : List (Str × β) → Str → β → List (Str × β)
  | [], k, v => [(k, v)]
  | q :: rest, k, v => if q.1 = k then (k, v) :: rest else q :: dictSet rest k v

/-- Python `d.setdefault(k, v)`: keep an existing binding, else append. -/
def setdefault {β : Type} (d : List (Str × β)) (k : Str) (v : β) : List (Str × β) :=
  if d.any (fun q => q.1 = k) then d else d ++ [(k, v)]

/-- The asset registry `self.files`: URL → file handle. -/
abbrev Files := List (Str × StaticFile)

/-- The observable outcome of one `process_request` call: the produced
response (`none` = pass-through), the registry (`self.files`) afterwards,
and how many times filesystem discovery (`find_file`) ran during the call. -/
structure ProcessResult where
  response : Option FileHttpResponse
  files : Files
  finds : Nat

/-- `WhiteNoiseMiddleware.process_request` (shared by the lazy subclass,
whose `can_lazy_load_url` override is passed here as `gate`): in autorefresh
mode, always a fresh discovery; otherwise a registry lookup, then — on a
miss the gate allows — a discovery whose successful result is inserted into
the registry.  A gate error (the lazy gate can raise `TypeError`)
propagates. -/
def process_request (cfg : MWConfig) (gate : Str → Except Unit Bool)
    (files : Files) (request : Request) : Except Unit ProcessResult :=
  if cfg.autorefresh then
    match cfg.find_file request.path_info with
    | some sf => Except.ok ⟨some (serve sf request), files, 1⟩
    | none => Except.ok ⟨none, files, 1⟩
  else
    match dictGet files request.path_info with
    | some sf => Except.ok ⟨some (serve sf request), files, 0⟩
    | none =>
      match gate request.path_info with
      | Except.error e => Except.error e
      | Except.ok true =>
        match cfg.find_file request.path_info with
        | some sf =>
          Except.ok ⟨some (serve sf request), dictSet files request.path_info sf, 1⟩
        | none => Except.ok ⟨none, files, 1⟩
      | Except.ok false => Except.ok ⟨none, files, 0⟩

/-- `WhiteNoiseMiddleware.can_lazy_load_url`: the eager base middleware never
lazily loads any URL. -/
def WhiteNoiseMiddleware.can_lazy_load_url (url : Str) : Bool := false

/-- The base middleware's gate in the form `process_request` consumes
(total, never raising). -/
def baseGate : Str → Except Unit Bool :=
  fun url => Except.ok (WhiteNoiseMiddleware.can_lazy_load_url url)

/-! ## The lazy middleware -/

/-- Configuration of `LazyWhiteNoiseMiddleware`.  `hashed_files` is the
manifest of the versioning storage (`staticfiles_storage.hashed_files`, a
mapping unhashed name → hashed name), present exactly when that storage is a
`ManifestStaticFilesStorage`; `keep_only_hashed_files` is the
`WHITENOISE_KEEP_ONLY_HASHED_FILES` setting. -/
structure LazyMWConfig where
  mw : MWConfig
  hashed_files : Option (List (Str × Str))
  keep_only_hashed_files : Bool

/-- `LazyWhiteNoiseMiddleware.known_static_urls`: `None` without a manifest
storage; otherwise every hashed filename (manifest value) plus — unless
`WHITENOISE_KEEP_ONLY_HASHED_FILES` is set — every unhashed filename
(manifest key), each prefixed with the static prefix.  (The source caches
the computed set in a `cached_property`; as a pure function of the
configuration the cache is observationally irrelevant.) -/
def known_static_urls (l : LazyMWConfig) : Option (List Str) :=
  match l.hashed_files with
  | none => none
  | some m =>
    let serve_unhashed := !l.keep_only_hashed_files
    some (((m.map (fun q => q.2))
        ++ (if serve_unhashed then m.map (fun q => q.1) else [])).map
      (fun n => l.mw.static_prefix ++ n))

/-- `LazyWhiteNoiseMiddleware.can_lazy_load_url`, with Python's operator
precedence: `(url.startswith(prefix) and known is None) or (url in known)`.
When the first disjunct fails while `known_static_urls` is `None`, the
membership test `url in None` raises a `TypeError`, modelled as
`Except.error ()`. -/
def LazyWhiteNoiseMiddleware.can_lazy_load_url (l : LazyMWConfig) (url : Str) :
    Except Unit Bool :=
  if l.mw.static_prefix.isPrefixOf url && (known_static_urls l).isNone then
    Except.ok true
  else
    match known_static_urls l with
    | none => Except.error ()
    | some s => Except.ok (decide (url ∈ s))

/-! ## Eager finder enumeration -/

/-- A staticfiles storage backend as the finder enumeration consumes it:
`pfx` models the backend's `prefix` attribute (`None` when absent), `path`
its relative-path → filesystem-path mapping (`storage.path`). -/
structure Storage where
  pfx : Option Str
  path : Str → Str

/-- Python `s.strip("/")`: drop leading and trailing slashes. -/
def stripSlashes (s : Str) : Str :=
  ((s.dropWhile (fun c => c = '/')).reverse.dropWhile (fun c => c = '/')).reverse

/-- Python `path.replace("\\", "/")`. -/
def replaceBackslashes (p : Str) : Str :=
  p.map (fun c => if c = '\\' then '/' else c)

/-- The URL computed for one finder entry:
`static_prefix + prefix + ("/" if prefix else "") + path.replace("\\", "/")`. -/
def finder_url (cfg : MWConfig) (storage : Storage) (path : Str) : Str :=
  let pfx := stripSlashes (storage.pfx.getD [])
  cfg.static_prefix ++ pfx ++ (if pfx = [] then [] else ['/'])
    ++ replaceBackslashes path

/-- `WhiteNoiseMiddleware.add_files_from_finders`, collection phase: walk
every finder's `(path, storage)` entries in enumeration order and build the
`files` dict with `setdefault`, so only the first entry for a URL is kept.
(The `stat_cache` the source then builds caches one `os.stat` per unique
path; it does not affect which path a URL is bound to.) -/
def add_files_from_finders (cfg : MWConfig)
    (finderLists : List (List (Str × Storage))) : List (Str × Str) :=
  finderLists.flatten.foldl
    (fun files e => setdefault files (finder_url cfg e.2 e.1) (e.2.path e.1)) []

/-- Modelled from the spec: the registration phase of
`add_files_from_finders`.  `add_file_to_dictionary` (base class, not among
the sources) binds each collected URL to the descriptor built from its path;
the registry is modelled as the URL → path mapping. -/
def registerAll (registry : List (Str × Str)) (entries : List (Str × Str)) :
    List (Str × Str) :=
  entries.foldl (fun r e => dictSet r e.1 e.2) registry

/-! ## Concrete witness data -/

/-- A concrete file-handle response used by witnesses. -/
def wResponse : StaticResponse where
  status := 200
  file := some [("body").data]
  headers := [(("Content-Type").data, ("text/css").data),
              (("Content-Length").data, ("4").data)]

/-- A concrete file handle used by witnesses. -/
def wFile : StaticFile where
  get_response := fun _ _ => wResponse

/-- A concrete request used by witnesses. -/
def wRequest : Request where
  path_info := ("/static/app.css").data
  method := ("GET").data
  meta := []

/-- A concrete version resolver: maps `app.css` to its hashed URL, raises
`ValueError` on any other name. -/
def wResolver : Str → Except Unit (Option Str) :=
  fun n =>
    if n = ("app.css").data then
      Except.ok (some (("/static/app.3f2a1c9d.css").data))
    else Except.error ()

/-- A concrete non-autorefresh middleware configuration used by witnesses. -/
def wCfg : MWConfig where
  autorefresh := false
  static_prefix := ("/static/").data
  storage_url := wResolver
  find_file := fun u => if u = ("/static/app.css").data then some wFile else none

/-- `wCfg` in autorefresh mode. -/
def wCfgAuto : MWConfig := { wCfg with autorefresh := true }

/-- A concrete manifest: `app.css` → `app.3f2a1c9d.css`. -/
def wManifest : List (Str × Str) :=
  [(("app.css").data, ("app.3f2a1c9d.css").data)]

/-- A lazy middleware configuration with a manifest. -/
def wLazy : LazyMWConfig where
  mw := wCfg
  hashed_files := some wManifest
  keep_only_hashed_files := false

/-- A lazy middleware configuration without a manifest. -/
def wLazyNoManifest : LazyMWConfig where
  mw := wCfg
  hashed_files := none
  keep_only_hashed_files := false

/-- A request for a URL no manifest entry covers. -/
def wRequestMissing : Request where
  path_info := ("/static/missing.css").data
  method := ("GET").data
  meta := []

/-- The knowledge set `wLazy` materialises from `wManifest`. -/
def wKnown : List Str :=
  [("/static/app.3f2a1c9d.css").data, ("/static/app.css").data]

/-! ## Sanity checks on concrete data -/

example : splitext ("css/application.f3ea4bcc2.css").data
    = (("css/application.f3ea4bcc2").data, (".css").data) := by decide
example : get_name_without_hash ("css/application.f3ea4bcc2.css").data
    = ("css/application.css").data := by decide
example : get_name_without_hash ("app.css").data = ("app.css").data := by decide
example : get_name_without_hash (".hidden").data = (".hidden").data := by decide
example : basename ("/static/app.3f2a1c9d.css").data
    = ("app.3f2a1c9d.css").data := by decide
example : immutable_file_test wCfg [] ("/static/app.3f2a1c9d.css").data = true := by
  decide
example : immutable_file_test wCfg [] ("/static/app.css").data = false := by decide

/-! ## Facts about `rfind`, `splitext` and `basename` -/

theorem rfind_lt_length {c : Char} {l : Str} {i : Nat} (h : rfind c l = some i) :
    i < l.length := by
  induction l generalizing i with
  | nil => simp [rfind] at h
  | cons a rest ih =>
    rw [rfind] at h
    cases hr : rfind c rest with
    | some j =>
      rw [hr] at h
      cases h
      exact Nat.succ_lt_succ (ih hr)
    | none =>
      rw [hr] at h
      by_cases hac : a = c
      · rw [if_pos hac] at h
        cases h
        simp
      · rw [if_neg hac] at h
        exact absurd h (by simp)

theorem rfind_get {c : Char} {l : Str} {i : Nat} (h : rfind c l = some i) :
    l[i]? = some c := by
  induction l generalizing i with
  | nil => simp [rfind] at h
  | cons a rest ih =>
    rw [rfind] at h
    cases hr : rfind c rest with
    | some j =>
      rw [hr] at h
      cases h
      simpa using ih hr
    | none =>
      rw [hr] at h
      by_cases hac : a = c
      · rw [if_pos hac] at h
        cases h
        simp [hac]
      · rw [if_neg hac] at h
        exact absurd h (by simp)

theorem rfind_drop {c : Char} {l : Str} {i k : Nat} (h : rfind c l = some i)
    (hk : k ≤ i) : rfind c (l.drop k) = some (i - k) := by
  induction k generalizing l i with
  | zero => simpa using h
  | succ k ih =>
    cases l with
    | nil => simp [rfind] at h
    | cons a rest =>
      rw [rfind] at h
      cases hr : rfind c rest with
      | some j =>
        rw [hr] at h
        cases h
        have hk' : k ≤ j := Nat.succ_le_succ_iff.mp hk
        simpa [Nat.succ_sub_succ] using ih hr hk'
      | none =>
        rw [hr] at h
        by_cases hac : a = c
        · rw [if_pos hac] at h
          cases h
          exact absurd hk (by omega)
        · rw [if_neg hac] at h
          exact absurd h (by simp)

/-- When the last slash of a filename is its final character, no extension is
split off, so stripping the hash leaves the filename unchanged. -/
theorem get_name_without_hash_of_sep_last {name : Str}
    (h : rfind '/' name = some (name.length - 1)) :
    get_name_without_hash name = name := by
  have hsplit : splitext name = (name, []) := by
    unfold splitext
    rw [h]
    cases hd : rfind '.' name with
    | none =>
      simp only [idxInt]
      rw [if_neg]
      omega
    | some d =>
      have hdl := rfind_lt_length hd
      have hda := rfind_get hd
      have hsa := rfind_get h
      have hdne : d ≠ name.length - 1 := by
        intro e
        rw [e, hsa] at hda
        cases hda
      simp only [idxInt]
      rw [if_neg]
      omega
  simp [get_name_without_hash, hsplit]

theorem get_name_without_hash_nil : get_name_without_hash [] = [] := by decide

/-- If stripping the hash from the suffix `url.drop k` changes it, then the
final path component of `url` is nonempty. -/
theorem basename_ne_nil_of_hash {url : Str} {k : Nat}
    (h : get_name_without_hash (url.drop k) ≠ url.drop k) :
    basename url ≠ [] := by
  intro hb
  cases hs : rfind '/' url with
  | none =>
    have hnil : url = [] := by simpa [basename, hs] using hb
    apply h
    simp [hnil, get_name_without_hash_nil]
  | some i =>
    have hdrop : url.drop (i + 1) = [] := by simpa [basename, hs] using hb
    have hil := rfind_lt_length hs
    have hlen : url.length = i + 1 := by
      have := List.drop_eq_nil_iff.mp hdrop
      omega
    by_cases hk : url.length ≤ k
    · apply h
      have hknil : url.drop k = [] := List.drop_eq_nil_iff.mpr hk
      simp [hknil, get_name_without_hash_nil]
    · have hki : k ≤ i := by omega
      have hr := rfind_drop hs hki
      have hdl : (url.drop k).length = url.length - k := List.length_drop ..
      apply h
      apply get_name_without_hash_of_sep_last
      rw [hr, hdl]
      congr 1
      omega

/-! ## Claim C1: immutability classification characterised -/

/-- C1: `immutable_file_test` returns true exactly when: the url carries the
static prefix, stripping the hash segment changes the stripped name, the
version resolver maps the hash-stripped name to a canonical URL, and that
URL's final path component equals the original url's. -/
theorem C1_immutable_file_test_iff (cfg : MWConfig) (path url : Str) :
    immutable_file_test cfg path url = true ↔ spec_immutable cfg url := by
  unfold immutable_file_test spec_immutable
  by_cases hpre : cfg.static_prefix.isPrefixOf url
  · rw [if_pos hpre]
    dsimp only
    by_cases heq : url.drop cfg.static_prefix.length
        = get_name_without_hash (url.drop cfg.static_prefix.length)
    · rw [if_pos heq]
      constructor
      · intro h
        exact absurd h (by simp)
      · rintro ⟨-, hne, -⟩
        exact absurd heq.symm hne
    · rw [if_neg heq]
      have hne : get_name_without_hash (url.drop cfg.static_prefix.length)
          ≠ url.drop cfg.static_prefix.length := fun e => heq e.symm
      have hbne : basename url ≠ [] := basename_ne_nil_of_hash hne
      cases hsu : cfg.storage_url
          (get_name_without_hash (url.drop cfg.static_prefix.length)) with
      | error e =>
        simp only [get_static_url, hsu]
        simp
      | ok v =>
        cases v with
        | none =>
          simp only [get_static_url, hsu]
          simp
        | some su =>
          simp only [get_static_url, hsu, Except.ok.injEq, Option.some.injEq,
            exists_eq_left']
          constructor
          · intro h
            by_cases hcond : su ≠ [] ∧ basename su = basename url
            · exact ⟨hpre, hne, hcond.2⟩
            · rw [if_neg hcond] at h
              exact absurd h (by simp)
          · rintro ⟨-, -, hb⟩
            have hsune : su ≠ [] := by
              intro e
              apply hbne
              rw [← hb, e]
              decide
            rw [if_pos ⟨hsune, hb⟩]
  · rw [if_neg hpre]
    constructor
    · intro h
      exact absurd h (by simp)
    · rintro ⟨hp, -⟩
      exact absurd hp hpre

/-! ## Claim C8: resolver failure is recovered as "not immutable" -/

/-- C8: if the version resolver raises (`ValueError`) or returns nothing for
the hash-stripped name, `immutable_file_test` returns false; being
`Bool`-valued, it propagates no error. -/
theorem C8_resolver_failure_not_immutable (cfg : MWConfig) (path url : Str)
    (h : cfg.storage_url (get_name_without_hash (url.drop cfg.static_prefix.length))
          = Except.error ()
      ∨ cfg.storage_url (get_name_without_hash (url.drop cfg.static_prefix.length))
          = Except.ok none) :
    immutable_file_test cfg path url = false := by
  unfold immutable_file_test
  by_cases hpre : cfg.static_prefix.isPrefixOf url
  · rw [if_pos hpre]
    dsimp only
    by_cases heq : url.drop cfg.static_prefix.length
        = get_name_without_hash (url.drop cfg.static_prefix.length)
    · rw [if_pos heq]
    · rw [if_neg heq]
      rcases h with h | h <;> simp [get_static_url, h]
  · rw [if_neg hpre]

/-- C8 witness: `wCfg`'s resolver raises on `app.js`, so
`/static/app.9999.js` is classified not immutable. -/
theorem C8_witness :
    wCfg.storage_url (get_name_without_hash
        ((("/static/app.9999.js").data).drop wCfg.static_prefix.length))
      = Except.error ()
    ∧ immutable_file_test wCfg [] (("/static/app.9999.js").data) = false :=
  ⟨rfl, C8_resolver_failure_not_immutable wCfg [] (("/static/app.9999.js").data)
    (Or.inl rfl)⟩

/-! ## Claims C9 and C10: eager and autorefresh routing -/

/-- C9: in autorefresh mode every call performs a fresh discovery, the
result is determined by `find_file` alone, and the registry is neither
consulted nor changed. -/
theorem C9_autorefresh_fresh_discovery (cfg : MWConfig)
    (gate : Str → Except Unit Bool) (files : Files) (request : Request)
    (h : cfg.autorefresh = true) :
    process_request cfg gate files request
      = Except.ok ⟨(cfg.find_file request.path_info).map (fun sf => serve sf request),
          files, 1⟩ := by
  unfold process_request
  rw [if_pos h]
  cases cfg.find_file request.path_info <;> simp

/-- C9 witness. -/
theorem C9_witness :
    wCfgAuto.autorefresh = true
    ∧ process_request wCfgAuto baseGate [] wRequest
        = Except.ok ⟨(wCfgAuto.find_file wRequest.path_info).map
            (fun sf => serve sf wRequest), [], 1⟩ :=
  ⟨rfl, C9_autorefresh_fresh_discovery wCfgAuto baseGate [] wRequest rfl⟩

/-- C10: the base middleware's gate is always false, so in non-autorefresh
mode `process_request` never mutates the registry and never runs discovery:
the registry after the call is the registry before, on hit and miss alike. -/
theorem C10_base_registry_unchanged (cfg : MWConfig) (files : Files)
    (request : Request) (h : cfg.autorefresh = false) :
    process_request cfg baseGate files request
      = Except.ok ⟨(dictGet files request.path_info).map (fun sf => serve sf request),
          files, 0⟩ := by
  unfold process_request
  rw [if_neg (by simp [h])]
  cases dictGet files request.path_info with
  | some sf => simp
  | none => simp [baseGate, WhiteNoiseMiddleware.can_lazy_load_url]

/-- C10 witness. -/
theorem C10_witness :
    wCfg.autorefresh = false
    ∧ process_request wCfg baseGate [] wRequest
        = Except.ok ⟨(dictGet [] wRequest.path_info).map (fun sf => serve sf wRequest),
            [], 0⟩ :=
  ⟨rfl, C10_base_registry_unchanged wCfg [] wRequest rfl⟩

/-! ## Claim C4: lazy convergence -/

theorem dictGet_dictSet_self {β : Type} (d : List (Str × β)) (k : Str) (v : β) :
    dictGet (dictSet d k v) k = some v := by
  induction d with
  | nil => simp [dictGet, dictSet]
  | cons q rest ih =>
    by_cases hq : q.1 = k
    · simp [dictSet, hq, dictGet]
    · simp [dictSet, hq, dictGet, ih]

/-- C4: in lazy (non-autorefresh) resolution, a first miss whose gate passes
and whose discovery succeeds inserts the found handle into the registry, and
a second resolution of the same URL is served from the registry with no
further discovery. -/
theorem C4_lazy_convergence (cfg : MWConfig) (gate : Str → Except Unit Bool)
    (files : Files) (req1 req2 : Request) (url : Str) (sf : StaticFile)
    (hauto : cfg.autorefresh = false)
    (hp1 : req1.path_info = url) (hp2 : req2.path_info = url)
    (hmiss : dictGet files url = none)
    (hgate : gate url = Except.ok true)
    (hfind : cfg.find_file url = some sf) :
    process_request cfg gate files req1
        = Except.ok ⟨some (serve sf req1), dictSet files url sf, 1⟩
    ∧ process_request cfg gate (dictSet files url sf) req2
        = Except.ok ⟨some (serve sf req2), dictSet files url sf, 0⟩ := by
  constructor
  · unfold process_request
    rw [if_neg (by simp [hauto]), hp1, hmiss, hgate, hfind]
  · unfold process_request
    rw [if_neg (by simp [hauto]), hp2, dictGet_dictSet_self]

/-- C4 witness: `wCfg` lazily loads `/static/app.css` once, then serves it
from the registry. -/
theorem C4_witness :
    process_request wCfg (LazyWhiteNoiseMiddleware.can_lazy_load_url wLazyNoManifest)
        [] wRequest
      = Except.ok ⟨some (serve wFile wRequest), dictSet [] wRequest.path_info wFile, 1⟩
    ∧ process_request wCfg (LazyWhiteNoiseMiddleware.can_lazy_load_url wLazyNoManifest)
        (dictSet [] wRequest.path_info wFile) wRequest
      = Except.ok ⟨some (serve wFile wRequest), dictSet [] wRequest.path_info wFile, 0⟩ :=
  C4_lazy_convergence wCfg (LazyWhiteNoiseMiddleware.can_lazy_load_url wLazyNoManifest)
    [] wRequest wRequest wRequest.path_info wFile rfl rfl rfl rfl rfl rfl

/-! ## Claim C3: the knowledge-set gate blocks discovery -/

/-- C3: lazy resolution with a materialised knowledge set: a URL that misses
the registry and is not in the set resolves to nothing, mutates nothing, and
never invokes discovery. -/
theorem C3_gate_blocks_discovery (l : LazyMWConfig) (files : Files)
    (request : Request) (s : List Str)
    (hauto : l.mw.autorefresh = false)
    (hknown : known_static_urls l = some s)
    (hmem : request.path_info ∉ s)
    (hmiss : dictGet files request.path_info = none) :
    process_request l.mw (LazyWhiteNoiseMiddleware.can_lazy_load_url l) files request
      = Except.ok ⟨none, files, 0⟩ := by
  have hgate : LazyWhiteNoiseMiddleware.can_lazy_load_url l request.path_info
      = Except.ok false := by
    unfold LazyWhiteNoiseMiddleware.can_lazy_load_url
    rw [hknown]
    simp [hmem]
  unfold process_request
  rw [if_neg (by simp [hauto]), hmiss, hgate]

/-- C3 witness: `/static/missing.css` is not in `wLazy`'s knowledge set, so
its lazy resolution returns nothing without discovery. -/
theorem C3_witness :
    known_static_urls wLazy = some wKnown
    ∧ wRequestMissing.path_info ∉ wKnown
    ∧ process_request wLazy.mw (LazyWhiteNoiseMiddleware.can_lazy_load_url wLazy)
        [] wRequestMissing
      = Except.ok ⟨none, [], 0⟩ :=
  ⟨by decide, by decide,
    C3_gate_blocks_discovery wLazy [] wRequestMissing wKnown rfl (by decide)
      (by decide) rfl⟩

/-! ## Claim C2: the gate without a manifest -/

/-- C2 counterexample: with no manifest, a URL outside the static prefix
makes `can_lazy_load_url` evaluate `url in None`, which raises `TypeError`
(modelled `Except.error ()`) instead of returning true. -/
theorem C2_counterexample :
    LazyWhiteNoiseMiddleware.can_lazy_load_url wLazyNoManifest (("/x").data)
      = Except.error () := rfl

/-- C2 (amended): with no manifest the gate returns true for every URL that
starts with the static prefix; for any other URL the membership test is made
against `None` and raises `TypeError` (`Except.error ()`). -/
theorem C2_no_manifest_gate (l : LazyMWConfig) (url : Str)
    (h : known_static_urls l = none) :
    LazyWhiteNoiseMiddleware.can_lazy_load_url l url
      = (if l.mw.static_prefix.isPrefixOf url then Except.ok true
         else Except.error ()) := by
  unfold LazyWhiteNoiseMiddleware.can_lazy_load_url
  rw [h]
  simp

/-- C2 witness. -/
theorem C2_witness :
    known_static_urls wLazyNoManifest = none
    ∧ LazyWhiteNoiseMiddleware.can_lazy_load_url wLazyNoManifest
        (("/static/app.css").data)
      = (if wLazyNoManifest.mw.static_prefix.isPrefixOf (("/static/app.css").data)
         then Except.ok true else Except.error ()) :=
  ⟨rfl, C2_no_manifest_gate wLazyNoManifest (("/static/app.css").data) rfl⟩

/-! ## Claim C5: response header fidelity -/

theorem headerSet_append {hs : List (Str × Str)} {k v : Str}
    (h : ∀ q ∈ hs, lowerStr q.1 ≠ lowerStr k) :
    headerSet hs k v = hs ++ [(k, v)] := by
  unfold headerSet
  rw [if_neg]
  simp only [List.any_eq_true, decide_eq_true_eq, not_exists, not_and]
  exact h

theorem foldl_headerSet_append {rest acc : List (Str × Str)}
    (hdistinct : (rest.map (fun q => lowerStr q.1)).Nodup)
    (hfresh : ∀ p ∈ rest, ∀ q ∈ acc, lowerStr q.1 ≠ lowerStr p.1) :
    rest.foldl (fun hs kv => headerSet hs kv.1 kv.2) acc = acc ++ rest := by
  induction rest generalizing acc with
  | nil => simp
  | cons p rest ih =>
    rw [List.foldl_cons,
      headerSet_append (fun q hq => hfresh p (List.mem_cons_self p rest) q hq)]
    rw [List.map_cons, List.nodup_cons] at hdistinct
    have hfresh' : ∀ x ∈ rest, ∀ q ∈ acc ++ [p], lowerStr q.1 ≠ lowerStr x.1 := by
      intro x hx q hq
      rcases List.mem_append.mp hq with hq | hq
      · exact hfresh x (List.mem_cons_of_mem p hx) q hq
      · have hqp : q = p := by simpa using hq
        subst hqp
        intro e
        apply hdistinct.1
        rw [e]
        exact List.mem_map_of_mem _ hx
    rw [ih hdistinct.2 hfresh']
    simp

/-- C5: the transport response built by `serve` carries exactly the headers
supplied by the file handle's response, in order: the transport's default
content type is removed and, the authoritative names being
case-insensitively distinct, no header is duplicated. -/
theorem C5_serve_header_fidelity (static_file : StaticFile) (request : Request)
    (h : headerNamesDistinct
      (static_file.get_response request.method request.meta).headers) :
    (serve static_file request).headers
      = (static_file.get_response request.method request.meta).headers := by
  unfold serve
  dsimp only
  have hdel : headerDel [default_content_type] (("content-type").data) = [] := by
    decide
  rw [hdel, foldl_headerSet_append h (fun p _ q hq => absurd hq (List.not_mem_nil q))]
  simp

/-- C5 witness: `wFile`'s two headers survive `serve` verbatim. -/
theorem C5_witness :
    headerNamesDistinct (wFile.get_response wRequest.method wRequest.meta).headers
    ∧ (serve wFile wRequest).headers
        = (wFile.get_response wRequest.method wRequest.meta).headers :=
  ⟨by decide, C5_serve_header_fidelity wFile wRequest (by decide)⟩

/-! ## Claim C7: the materialised knowledge set -/

/-- C7: with a manifest, membership in the materialised knowledge set holds
exactly for the hashed filenames (manifest values) and — unless
`keep_only_hashed_files` is set — the unhashed filenames (manifest keys),
each prefixed with the static prefix. -/
theorem C7_known_static_urls_characterised (l : LazyMWConfig)
    (m : List (Str × Str)) (s : List Str) (u : Str)
    (hm : l.hashed_files = some m)
    (hs : known_static_urls l = some s) :
    u ∈ s ↔ (∃ q ∈ m, l.mw.static_prefix ++ q.2 = u)
      ∨ (l.keep_only_hashed_files = false
         ∧ ∃ q ∈ m, l.mw.static_prefix ++ q.1 = u) := by
  unfold known_static_urls at hs
  rw [hm] at hs
  simp only [Option.some.injEq] at hs
  subst hs
  cases hkeep : l.keep_only_hashed_files with
  | false => simp [List.mem_map, List.mem_append]
  | true => simp [List.mem_map, List.mem_append]

/-- C7 witness: `/static/app.css` is in `wLazy`'s knowledge set because it is
a prefixed manifest key and unhashed names are kept. -/
theorem C7_witness :
    wLazy.hashed_files = some wManifest
    ∧ known_static_urls wLazy = some wKnown
    ∧ ((("/static/app.css").data ∈ wKnown)
        ↔ (∃ q ∈ wManifest, wLazy.mw.static_prefix ++ q.2 = ("/static/app.css").data)
          ∨ (wLazy.keep_only_hashed_files = false
             ∧ ∃ q ∈ wManifest,
                wLazy.mw.static_prefix ++ q.1 = ("/static/app.css").data)) :=
  ⟨rfl, by decide,
    C7_known_static_urls_characterised wLazy wManifest wKnown
      (("/static/app.css").data) rfl (by decide)⟩

/-! ## Claim C6: first-match-wins finder enumeration -/

theorem dictGet_eq_none_iff {β : Type} (d : List (Str × β)) (k : Str) :
    dictGet d k = none ↔ ∀ q ∈ d, q.1 ≠ k := by
  induction d with
  | nil => simp [dictGet]
  | cons q rest ih =>
    rw [dictGet]
    by_cases hq : q.1 = k
    · rw [if_pos hq]
      constructor
      · intro h
        cases h
      · intro h
        exact absurd hq (h q (List.mem_cons_self q rest))
    · rw [if_neg hq, ih]
      constructor
      · intro h q' hq'
        rcases List.mem_cons.mp hq' with rfl | hmem
        · exact hq
        · exact h q' hmem
      · intro h q' hq'
        exact h q' (List.mem_cons_of_mem q hq')

theorem dictGet_append {β : Type} (d1 d2 : List (Str × β)) (k : Str) :
    dictGet (d1 ++ d2) k
      = match dictGet d1 k with
        | some w => some w
        | none => dictGet d2 k := by
  induction d1 with
  | nil => simp [dictGet]
  | cons q rest ih =>
    by_cases hq : q.1 = k
    · simp [dictGet, hq]
    · simp [dictGet, hq, ih]

theorem dictGet_setdefault {β : Type} (d : List (Str × β)) (k k' : Str) (v : β) :
    dictGet (setdefault d k v) k'
      = match dictGet d k' with
        | some w => some w
        | none => if k = k' then some v else none := by
  unfold setdefault
  by_cases hany : d.any (fun q => decide (q.1 = k))
  · rw [if_pos hany]
    cases hd : dictGet d k' with
    | some w => simp
    | none =>
      have hne : k ≠ k' := by
        intro e
        subst e
        have hall := (dictGet_eq_none_iff d k).mp hd
        rcases List.any_eq_true.mp hany with ⟨q, hqmem, hqk⟩
        exact hall q hqmem (by simpa using hqk)
      simp [hne]
  · rw [if_neg hany, dictGet_append]
    cases hd : dictGet d k' with
    | some w => simp
    | none => simp [dictGet]

theorem setdefault_keys_nodup {β : Type} {d : List (Str × β)} {k : Str} {v : β}
    (h : (d.map (fun q => q.1)).Nodup) :
    ((setdefault d k v).map (fun q => q.1)).Nodup := by
  unfold setdefault
  by_cases hany : d.any (fun q => decide (q.1 = k))
  · rw [if_pos hany]
    exact h
  · rw [if_neg hany, List.map_append]
    rw [List.nodup_append]
    refine ⟨h, by simp, fun a ha hb => ?_⟩
    rcases List.mem_map.mp ha with ⟨q, hq, rfl⟩
    have hk : q.1 = k := by simpa using hb
    exact hany (List.any_eq_true.mpr ⟨q, hq, by simpa using hk⟩)

theorem foldl_setdefault_keys_nodup (cfg : MWConfig)
    (pairs : List (Str × Storage)) (acc : List (Str × Str))
    (h : (acc.map (fun q => q.1)).Nodup) :
    ((pairs.foldl (fun files e =>
        setdefault files (finder_url cfg e.2 e.1) (e.2.path e.1)) acc).map
      (fun q => q.1)).Nodup := by
  induction pairs generalizing acc with
  | nil => exact h
  | cons e rest ih =>
    rw [List.foldl_cons]
    exact ih _ (setdefault_keys_nodup h)

theorem dictGet_foldl_setdefault (cfg : MWConfig) (pairs : List (Str × Storage))
    (acc : List (Str × Str)) (url : Str) :
    dictGet (pairs.foldl (fun files e =>
        setdefault files (finder_url cfg e.2 e.1) (e.2.path e.1)) acc) url
      = match dictGet acc url with
        | some w => some w
        | none =>
          (pairs.find? (fun e => decide (finder_url cfg e.2 e.1 = url))).map
            (fun e => e.2.path e.1) := by
  induction pairs generalizing acc with
  | nil =>
    rw [List.foldl_nil]
    cases hd : dictGet acc url <;> simp [hd]
  | cons e rest ih =>
    rw [List.foldl_cons, ih, dictGet_setdefault]
    by_cases hu : finder_url cfg e.2 e.1 = url
    · rw [List.find?_cons_of_pos _ (by simpa using hu)]
      cases dictGet acc url <;> simp [hu]
    · rw [List.find?_cons_of_neg _ (by simpa using hu)]
      cases dictGet acc url <;> simp [hu]

theorem dictGet_dictSet {β : Type} (d : List (Str × β)) (k k' : Str) (v : β) :
    dictGet (dictSet d k v) k' = if k = k' then some v else dictGet d k' := by
  induction d with
  | nil => by_cases hk : k = k' <;> simp [dictSet, dictGet, hk]
  | cons q rest ih =>
    by_cases hq : q.1 = k
    · by_cases hk : k = k' <;> simp [dictSet, dictGet, hq, hk]
    · by_cases hk : k = k'
      · have hqk : ¬ q.1 = k' := fun e => hq (e.trans hk.symm)
        subst hk
        simp [dictSet, dictGet, hq, dictGet_dictSet_self]
      · simp [dictSet, dictGet, hq, hk, ih]

theorem dictGet_registerAll {entries reg : List (Str × Str)} {k : Str}
    (h : (entries.map (fun q => q.1)).Nodup) :
    dictGet (registerAll reg entries) k
      = match dictGet entries k with
        | some w => some w
        | none => dictGet reg k := by
  induction entries generalizing reg with
  | nil => simp [registerAll, dictGet]
  | cons e rest ih =>
    rw [List.map_cons, List.nodup_cons] at h
    have hstep : registerAll reg (e :: rest)
        = registerAll (dictSet reg e.1 e.2) rest := rfl
    rw [hstep, ih h.2]
    by_cases he : e.1 = k
    · have hrest : dictGet rest k = none := by
        rw [dictGet_eq_none_iff]
        intro q hq e'
        apply h.1
        rw [he, ← e']
        exact List.mem_map_of_mem _ hq
      simp [dictGet, he, hrest, dictGet_dictSet]
    · cases hd : dictGet rest k <;> simp [dictGet, he, dictGet_dictSet, hd]

/-- C6: first-match-wins — after eager finder enumeration, the registry binds
each computed URL to the path supplied by the first enumerated entry
producing that URL; later duplicates are silently discarded.  (The outcome
is a pure function of the enumeration order, hence deterministic across
repeated runs with that order.) -/
theorem C6_finders_first_match_wins (cfg : MWConfig)
    (finderLists : List (List (Str × Storage))) (url : Str) :
    dictGet (registerAll [] (add_files_from_finders cfg finderLists)) url
      = (finderLists.flatten.find?
          (fun e => decide (finder_url cfg e.2 e.1 = url))).map
          (fun e => e.2.path e.1) := by
  have hnodup : ((add_files_from_finders cfg finderLists).map
      (fun q => q.1)).Nodup := by
    unfold add_files_from_finders
    exact foldl_setdefault_keys_nodup cfg _ [] (by simp)
  rw [dictGet_registerAll hnodup]
  unfold add_files_from_finders
  rw [dictGet_foldl_setdefault]
  cases (finderLists.flatten.find?
      (fun e => decide (finder_url cfg e.2 e.1 = url))) <;> simp [dictGet]

example :
    dictGet (registerAll [] (add_files_from_finders wCfg
        [[(("foo.js").data, ⟨none, fun p => ("/a/").data ++ p⟩)],
         [(("foo.js").data, ⟨none, fun p => ("/b/").data ++ p⟩)]]))
      (("/static/foo.js").data)
    = some (("/a/foo.js").data) := by decide

end WhiteNoise
